import Mathlib

/-!
# Verification of the Chaotic-chess rule engine

A shallow embedding of the `ChessEngine` module (move generation, check
detection, move simulation, terminal-state evaluation and board growth)
together with proofs of the specification's testable properties.

Coordinates are integer pairs; the playable board is a finite set of
positions (the TypeScript code stores them as a `Set` of `"x,y"` keys,
which is in bijection with a finite set of integer pairs).  The two
`while` loops of the source (sliding-move generation and the castling
file scan) are modelled with explicit fuel; the fuel chosen is shown to
be exact for every run the source itself completes.
-/

namespace Chaotic

/-- The two piece colors (`Color` enum). -/
inductive Color where
  | white
  | black
deriving DecidableEq, Repr

/-- The six piece kinds (`PieceType` enum). -/
inductive PieceType where
  | pawn
  | rook
  | knight
  | bishop
  | queen
  | king
deriving DecidableEq, Repr

/-- An integer board coordinate (`Position` interface). -/
structure Pos where
  x : ℤ
  y : ℤ
deriving DecidableEq, Repr

/-- A piece record (`Piece` interface).  The optional ghost fields are
carried along but never read by the engine. -/
structure Piece where
  id : String
  type : PieceType
  color : Color
  pos : Pos
  hasMoved : Bool
  isGhost : Option Bool := none
  materializeIn : Option ℤ := none
deriving DecidableEq, Repr

/-- A move record (`Move` interface).  `from`/`to` are renamed
`fromPos`/`toPos` because `from` is reserved. -/
structure Move where
  fromPos : Pos
  toPos : Pos
  piece : Piece
  captured : Option Piece := none
  isEnPassant : Option Bool := none
  isCastling : Option Bool := none
  promotion : Option PieceType := none
deriving DecidableEq, Repr

/-- The per-color gold record (`Record<Color, number>`). -/
structure Gold where
  white : ℚ
  black : ℚ
deriving DecidableEq, Repr

/-- A board snapshot (`BoardState` interface).  The cell set is the set
of positions whose keys are in the TypeScript `Set<string>`. -/
structure BoardState where
  cells : Finset Pos
  pieces : List Piece
  turn : Color
  lastMove : Option Move
  gold : Gold
deriving DecidableEq

namespace ChessEngine

/-- `getPieceAt`: first piece of the snapshot's list standing at `pos`. -/
def getPieceAt (s : BoardState) (pos : Pos) : Option Piece :=
  s.pieces.find? fun p => decide (p.pos.x = pos.x ∧ p.pos.y = pos.y)

/-- Coordinatewise addition of a position and a direction vector. -/
def step (p dir : Pos) : Pos := ⟨p.x + dir.x, p.y + dir.y⟩

/-- The rook direction list used in `getValidMoves`. -/
def rookDirs : List Pos := [⟨1, 0⟩, ⟨-1, 0⟩, ⟨0, 1⟩, ⟨0, -1⟩]

/-- The bishop direction list used in `getValidMoves`. -/
def bishopDirs : List Pos := [⟨1, 1⟩, ⟨1, -1⟩, ⟨-1, 1⟩, ⟨-1, -1⟩]

/-- The queen direction list used in `getValidMoves`. -/
def queenDirs : List Pos :=
  [⟨1, 0⟩, ⟨-1, 0⟩, ⟨0, 1⟩, ⟨0, -1⟩, ⟨1, 1⟩, ⟨1, -1⟩, ⟨-1, 1⟩, ⟨-1, -1⟩]

/-- One capture probe of `getPawnMoves`: inside the
`captures.forEach` body, for one diagonal cell `c`. -/
def pawnCapture (s : BoardState) (piece : Piece) (c : Pos) : List Pos :=
  if c ∈ s.cells then
    match getPieceAt s c with
    | some target => if target.color ≠ piece.color then [c] else []
    | none =>
      match s.lastMove with
      | some lm =>
        if lm.piece.type = PieceType.pawn ∧ lm.toPos.x = c.x ∧
            lm.toPos.y = piece.pos.y ∧ (lm.fromPos.y - lm.toPos.y).natAbs = 2
        then [c] else []
      | none => []
  else []

/-- `getPawnMoves`: forward single/double step plus the two diagonal
capture / en-passant probes. -/
def getPawnMoves (s : BoardState) (piece : Piece) : List Pos :=
  let dir : ℤ := if piece.color = Color.white then -1 else 1
  let startY : ℤ := if piece.color = Color.white then 6 else 1
  let oneStep : Pos := ⟨piece.pos.x, piece.pos.y + dir⟩
  let twoStep : Pos := ⟨piece.pos.x, piece.pos.y + 2 * dir⟩
  let forward : List Pos :=
    if oneStep ∈ s.cells ∧ getPieceAt s oneStep = none then
      oneStep ::
        (if piece.pos.y = startY ∧ twoStep ∈ s.cells ∧ getPieceAt s twoStep = none
         then [twoStep] else [])
    else []
  forward ++ pawnCapture s piece ⟨piece.pos.x - 1, piece.pos.y + dir⟩
          ++ pawnCapture s piece ⟨piece.pos.x + 1, piece.pos.y + dir⟩

/-- The `while` loop body of `getSlidingMoves` along one direction,
with explicit fuel.  `c` is the moving piece's color, `cur` the current
probe cell. -/
def slideRay (s : BoardState) (c : Color) (dir : Pos) : ℕ → Pos → List Pos
  | 0, _ => []
  | fuel + 1, cur =>
    if cur ∈ s.cells then
      match getPieceAt s cur with
      | none => cur :: slideRay s c dir fuel (step cur dir)
      | some target => if target.color ≠ c then [cur] else []
    else []

/-- `getSlidingMoves`: walk every direction of `dirs` in order.  The
fuel `s.cells.card + 1` can never be exhausted mid-walk because the
walk only continues through distinct members of the cell set. -/
def getSlidingMoves (s : BoardState) (piece : Piece) : List Pos → List Pos
  | [] => []
  | dir :: rest =>
    slideRay s piece.color dir (s.cells.card + 1) (step piece.pos dir) ++
      getSlidingMoves s piece rest

/-- The knight offset list of `getKnightMoves`. -/
def knightDiffs : List Pos :=
  [⟨1, 2⟩, ⟨1, -2⟩, ⟨-1, 2⟩, ⟨-1, -2⟩, ⟨2, 1⟩, ⟨2, -1⟩, ⟨-2, 1⟩, ⟨-2, -1⟩]

/-- The king offset list of `getKingMoves`. -/
def kingDiffs : List Pos :=
  [⟨1, 0⟩, ⟨-1, 0⟩, ⟨0, 1⟩, ⟨0, -1⟩, ⟨1, 1⟩, ⟨1, -1⟩, ⟨-1, 1⟩, ⟨-1, -1⟩]

/-- The shared offset-filter of `getKnightMoves`/`getKingMoves`:
a target is kept when it is a playable cell not holding a friendly
piece (`getPieceAt(state, p)?.color !== piece.color`). -/
def offsetMoves (s : BoardState) (piece : Piece) (diffs : List Pos) : List Pos :=
  (diffs.map fun d => step piece.pos d).filter fun p =>
    decide (p ∈ s.cells) &&
      (match getPieceAt s p with
       | some q => decide (q.color ≠ piece.color)
       | none => true)

/-- `getKnightMoves`. -/
def getKnightMoves (s : BoardState) (piece : Piece) : List Pos :=
  offsetMoves s piece knightDiffs

/-- `getKingMoves` (castling excluded; it is appended separately in
`getValidMoves`). -/
def getKingMoves (s : BoardState) (piece : Piece) : List Pos :=
  offsetMoves s piece kingDiffs

/-- The `switch (piece.type)` of `getValidMoves`, without the king's
castling appendix (which only exists in non-`ignoreCheck` mode). -/
def pieceMovesNoCastle (s : BoardState) (piece : Piece) : List Pos :=
  match piece.type with
  | PieceType.pawn => getPawnMoves s piece
  | PieceType.rook => getSlidingMoves s piece rookDirs
  | PieceType.bishop => getSlidingMoves s piece bishopDirs
  | PieceType.knight => getKnightMoves s piece
  | PieceType.queen => getSlidingMoves s piece queenDirs
  | PieceType.king => getKingMoves s piece

/-- `getValidMoves(state, pos, true)`: the `ignoreCheck` entry point.
No castling is generated and no legality filter is applied, so this
instance of the source's recursion is self-contained. -/
def getValidMovesIgnore (s : BoardState) (pos : Pos) : List Pos :=
  match getPieceAt s pos with
  | none => []
  | some piece => pieceMovesNoCastle s piece

/-- `isKingInCheck`: the king of `color` is attacked by some
opposing piece's `ignoreCheck` move set. -/
def isKingInCheck (s : BoardState) (color : Color) : Bool :=
  match s.pieces.find? (fun p => decide (p.type = PieceType.king ∧ p.color = color)) with
  | none => false
  | some king =>
    let opponentColor := if color = Color.white then Color.black else Color.white
    (s.pieces.filter fun p => decide (p.color = opponentColor)).any fun p =>
      (getValidMovesIgnore s p.pos).any fun m =>
        decide (m.x = king.pos.x ∧ m.y = king.pos.y)

/-- `simulateMove`: capture at the destination, relocate the mover,
and (for a diagonal pawn move onto a previously empty cell) remove the
en-passant victim. -/
def simulateMove (s : BoardState) (m : Move) : BoardState :=
  let newPieces :=
    (s.pieces.filter fun p => !decide (p.pos.x = m.toPos.x ∧ p.pos.y = m.toPos.y)).map
      fun p =>
        if p.pos.x = m.fromPos.x ∧ p.pos.y = m.fromPos.y then
          { p with pos := m.toPos, hasMoved := true }
        else p
  if m.piece.type = PieceType.pawn ∧ m.fromPos.x ≠ m.toPos.x ∧ getPieceAt s m.toPos = none then
    { s with pieces :=
        newPieces.filter fun p => !decide (p.pos.x = m.toPos.x ∧ p.pos.y = m.fromPos.y) }
  else
    { s with pieces := newPieces }

/-- The castling file scan of `getCastlingMoves`
(`for (let x = piece.pos.x + dx; x !== rook.pos.x; x += dx)`), with
explicit fuel.  For every scan the source completes, the fuel
`(rook.pos.x - piece.pos.x).natAbs` is exactly enough to reach the
terminating test `x = rook.pos.x`; when king and rook share a file the
source loop never terminates, and this model returns `true` there. -/
def castleScan (s : BoardState) (piece rook : Piece) (dx : ℤ) : ℕ → ℤ → Bool
  | 0, _ => true
  | fuel + 1, x =>
    if x = rook.pos.x then true
    else if (getPieceAt s ⟨x, piece.pos.y⟩).isSome then false
    else if (x - piece.pos.x).natAbs ≤ 2 ∧
        isKingInCheck
          (simulateMove s { fromPos := piece.pos, toPos := ⟨x, piece.pos.y⟩, piece := piece })
          piece.color then false
    else castleScan s piece rook dx fuel (x + dx)

/-- The `rooks.forEach` body of `getCastlingMoves`: for each candidate
rook, push the two-square hop when the file scan is clear. -/
def castleRooks (s : BoardState) (piece : Piece) : List Piece → List Pos
  | [] => []
  | rook :: rest =>
    let dx : ℤ := if rook.pos.x > piece.pos.x then 1 else -1
    (if castleScan s piece rook dx (rook.pos.x - piece.pos.x).natAbs (piece.pos.x + dx)
     then [⟨piece.pos.x + 2 * dx, piece.pos.y⟩] else []) ++ castleRooks s piece rest

/-- `getCastlingMoves`: refused outright when the king has moved or is
currently in check; otherwise one scan per same-color unmoved rook. -/
def getCastlingMoves (s : BoardState) (piece : Piece) : List Pos :=
  if piece.hasMoved || isKingInCheck s piece.color then []
  else
    castleRooks s piece
      (s.pieces.filter fun p =>
        decide (p.type = PieceType.rook ∧ p.color = piece.color ∧ p.hasMoved = false))

/-- `getValidMoves(state, pos, ignoreCheck)`: the public entry point.
In non-`ignoreCheck` mode the king's castling hops are appended and
every candidate is passed through the legality filter. -/
def getValidMoves (s : BoardState) (pos : Pos) (ignoreCheck : Bool) : List Pos :=
  match getPieceAt s pos with
  | none => []
  | some piece =>
    let moves :=
      if piece.type = PieceType.king ∧ ignoreCheck = false then
        pieceMovesNoCastle s piece ++ getCastlingMoves s piece
      else pieceMovesNoCastle s piece
    if ignoreCheck then moves
    else
      moves.filter fun targetPos =>
        !isKingInCheck
          (simulateMove s { fromPos := pos, toPos := targetPos, piece := piece })
          piece.color

/-- `isCheckmate`: in check and no own piece has a legal move. -/
def isCheckmate (s : BoardState) (color : Color) : Bool :=
  if !isKingInCheck s color then false
  else
    (s.pieces.filter fun p => decide (p.color = color)).all fun p =>
      (getValidMoves s p.pos false).isEmpty

/-- `isStalemate`: not in check and no own piece has a legal move. -/
def isStalemate (s : BoardState) (color : Color) : Bool :=
  if isKingInCheck s color then false
  else
    (s.pieces.filter fun p => decide (p.color = color)).all fun p =>
      (getValidMoves s p.pos false).isEmpty

/-- A linear order on positions (lexicographic), used only to obtain a
computable enumeration of a cell set, standing in for the insertion
order of `Array.from(cells)`; every property proved about `expandBoard`
is independent of the enumeration order. -/
instance : LinearOrder Pos :=
  LinearOrder.lift' (fun p => toLex (p.x, p.y)) (by
    intro a b h
    cases a; cases b
    simpa [Prod.ext_iff] using h)

/-- The enumeration `Array.from(cells)` of a cell set. -/
def cellList (cells : Finset Pos) : List Pos :=
  cells.sort (fun a b => a ≤ b)

/-- JavaScript array indexing `l[Math.floor(q * l.length)]`: `none`
models the `undefined` that a subsequent field access crashes on. -/
def jsIndex {α : Type} (l : List α) (q : ℚ) : Option α :=
  let i : ℤ := ⌊q * l.length⌋
  if 0 ≤ i then l.get? i.toNat else none

/-- The retry loop of `expandBoard`.  `rand` is the stream of
`Math.random()` results, `i` the index of the next unconsumed draw;
each executed iteration consumes two draws (cell pick, neighbor pick).
`none` models the crash on indexing an empty cell list. -/
def expandLoop (rand : ℕ → ℚ) (currentCells : List Pos) (count : ℤ) :
    ℕ → ℕ → Finset Pos → ℕ → Option (Finset Pos × ℕ)
  | 0, _, acc, added => some (acc, added)
  | fuel + 1, i, acc, added =>
    if (added : ℤ) < count then
      match jsIndex currentCells (rand i) with
      | none => none
      | some randomCell =>
        match jsIndex
            [⟨randomCell.x + 1, randomCell.y⟩, ⟨randomCell.x - 1, randomCell.y⟩,
             ⟨randomCell.x, randomCell.y + 1⟩, ⟨randomCell.x, randomCell.y - 1⟩]
            (rand (i + 1)) with
        | none => none
        | some target =>
          if target ∈ acc then expandLoop rand currentCells count fuel (i + 2) acc added
          else expandLoop rand currentCells count fuel (i + 2) (insert target acc) (added + 1)
    else some (acc, added)

/-- `expandBoard`: pick a target count in `[1, 8]`, then at most 50
attempts at adding a random neighbor of a random existing cell. -/
def expandBoard (cells : Finset Pos) (rand : ℕ → ℚ) : Option (Finset Pos × ℕ) :=
  let count : ℤ := ⌊rand 0 * 8⌋ + 1
  expandLoop rand (cellList cells) count 50 1 cells 0

/-- The en-passant trigger of `simulateMove`: a pawn moving diagonally
onto a cell that was empty before the move. -/
def epTriggered (s : BoardState) (m : Move) : Prop :=
  m.piece.type = PieceType.pawn ∧ m.fromPos.x ≠ m.toPos.x ∧ getPieceAt s m.toPos = none

instance (s : BoardState) (m : Move) : Decidable (epTriggered s m) := by
  unfold epTriggered
  infer_instance

/-- The relocation applied by `simulateMove` to a single surviving
piece: the piece standing at the origin moves to the destination with
`hasMoved` set; every other piece is untouched. -/
def moveRelocate (m : Move) (p : Piece) : Piece :=
  if p.pos.x = m.fromPos.x ∧ p.pos.y = m.fromPos.y then
    { p with pos := m.toPos, hasMoved := true }
  else p

/-- A piece of the input snapshot survives `simulateMove` when it is
not captured at the destination and, when en passant triggers, does
not end up on the en-passant removal square (destination file, origin
rank). -/
def simKeeps (s : BoardState) (m : Move) (p : Piece) : Prop :=
  ¬(p.pos.x = m.toPos.x ∧ p.pos.y = m.toPos.y) ∧
    ¬(epTriggered s m ∧ (moveRelocate m p).pos.x = m.toPos.x ∧
        (moveRelocate m p).pos.y = m.fromPos.y)

instance (s : BoardState) (m : Move) (p : Piece) : Decidable (simKeeps s m p) := by
  unfold simKeeps
  infer_instance

end ChessEngine

open ChessEngine

/-- Zero gold on both sides, used by the concrete snapshots below. -/
def goldZ : Gold := ⟨0, 0⟩

/-- A lone white king used for small witness snapshots. -/
def wkW : Piece :=
  { id := "wk", type := PieceType.king, color := Color.white, pos := ⟨0, 0⟩, hasMoved := false }

/-- A two-cell snapshot holding only the white king. -/
def sW : BoardState :=
  { cells := {⟨0, 0⟩, ⟨1, 0⟩}, pieces := [wkW], turn := Color.white,
    lastMove := none, gold := goldZ }

/-- White king for the castling-off-board counterexample. -/
def wkC2 : Piece :=
  { id := "wk", type := PieceType.king, color := Color.white, pos := ⟨4, 7⟩, hasMoved := false }

/-- White rook for the castling-off-board counterexample. -/
def wrC2 : Piece :=
  { id := "wr", type := PieceType.rook, color := Color.white, pos := ⟨7, 7⟩, hasMoved := false }

/-- A snapshot whose cell set misses the castling landing square
`(6,7)`: the path squares the scan inspects are unoccupied, so the
two-square hop is generated even though it leaves the board. -/
def sC2 : BoardState :=
  { cells := {⟨4, 7⟩, ⟨5, 7⟩, ⟨7, 7⟩}, pieces := [wkC2, wrC2], turn := Color.white,
    lastMove := none, gold := goldZ }

/-- The off-board castling hop as a move record. -/
def mvC2 : Move := { fromPos := ⟨4, 7⟩, toPos := ⟨6, 7⟩, piece := wkC2 }

/-- The scan direction `dx` chosen by `getCastlingMoves` for a rook. -/
def castleDx (piece rook : Piece) : ℤ :=
  if rook.pos.x > piece.pos.x then 1 else -1

/-- `x` lies strictly between `a` and `b` (in either order). -/
def strictBetween (a b x : ℤ) : Prop :=
  (a < x ∧ x < b) ∨ (b < x ∧ x < a)

/-- What the castling file scan requires of one intermediate file `x`:
the square `(x, king rank)` is unoccupied and, when within two files of
the king, the king's simulated move there does not leave it in check. -/
def castleCellOk (s : BoardState) (piece : Piece) (x : ℤ) : Prop :=
  getPieceAt s ⟨x, piece.pos.y⟩ = none ∧
    ((x - piece.pos.x).natAbs ≤ 2 →
      isKingInCheck
        (simulateMove s { fromPos := piece.pos, toPos := ⟨x, piece.pos.y⟩, piece := piece })
        piece.color = false)

/-- White king for the castling-while-in-check counterexample. -/
def wkC4 : Piece :=
  { id := "wk", type := PieceType.king, color := Color.white, pos := ⟨4, 7⟩, hasMoved := false }

/-- White rook for the castling-while-in-check counterexample. -/
def wrC4 : Piece :=
  { id := "wr", type := PieceType.rook, color := Color.white, pos := ⟨7, 7⟩, hasMoved := false }

/-- Black rook giving check down the king's file. -/
def brC4 : Piece :=
  { id := "br", type := PieceType.rook, color := Color.black, pos := ⟨4, 0⟩, hasMoved := true }

/-- A snapshot in which the white king is in check from `(4,0)`, the
castling path toward `(7,7)` is clear and both crossed squares are safe
once the king steps aside, yet castling is refused. -/
def sC4 : BoardState :=
  { cells := {⟨4, 0⟩, ⟨4, 1⟩, ⟨4, 2⟩, ⟨4, 3⟩, ⟨4, 4⟩, ⟨4, 5⟩, ⟨4, 6⟩, ⟨4, 7⟩,
      ⟨5, 7⟩, ⟨6, 7⟩, ⟨7, 7⟩},
    pieces := [wkC4, wrC4, brC4], turn := Color.white, lastMove := none, gold := goldZ }

/-- A pawn's forward direction: `-1` for white, `+1` for black. -/
def pawnDir (c : Color) : ℤ := if c = Color.white then -1 else 1

/-- A pawn's double-step start rank: `6` for white, `1` for black. -/
def pawnStartY (c : Color) : ℤ := if c = Color.white then 6 else 1

/-- A white pawn used for the pawn-move witness. -/
def wpW : Piece :=
  { id := "wp", type := PieceType.pawn, color := Color.white, pos := ⟨4, 6⟩, hasMoved := false }

/-- A small snapshot with the white pawn on its start rank and empty
cells ahead. -/
def sP5 : BoardState :=
  { cells := {⟨4, 6⟩, ⟨4, 5⟩, ⟨4, 4⟩, ⟨3, 5⟩, ⟨5, 5⟩}, pieces := [wpW],
    turn := Color.white, lastMove := none, gold := goldZ }

/-- The `k`-th cell along a ray: the piece position displaced `k`
times by the direction vector. -/
def rayCell (p dir : Pos) (k : ℕ) : Pos :=
  ⟨p.x + dir.x * k, p.y + dir.y * k⟩

/-- The direction list `getValidMoves` passes to `getSlidingMoves` for
each sliding piece type. -/
def slidingDirs : PieceType → List Pos
  | PieceType.rook => rookDirs
  | PieceType.bishop => bishopDirs
  | PieceType.queen => queenDirs
  | _ => []

/-- White rook for the sliding-move witness (spec scenario: rook at
the origin, friendly blocker at `(0,3)`, enemy at `(0,5)`). -/
def rkW : Piece :=
  { id := "wr", type := PieceType.rook, color := Color.white, pos := ⟨0, 0⟩, hasMoved := false }

/-- Friendly blocker for the sliding-move witness. -/
def frW : Piece :=
  { id := "wp2", type := PieceType.pawn, color := Color.white, pos := ⟨0, 3⟩, hasMoved := true }

/-- Enemy piece beyond the friendly blocker. -/
def enW : Piece :=
  { id := "bp", type := PieceType.pawn, color := Color.black, pos := ⟨0, 5⟩, hasMoved := true }

/-- The sliding-move witness snapshot. -/
def sR6 : BoardState :=
  { cells := {⟨0, 0⟩, ⟨0, 1⟩, ⟨0, 2⟩, ⟨0, 3⟩, ⟨0, 4⟩, ⟨0, 5⟩, ⟨1, 0⟩},
    pieces := [rkW, frW, enW], turn := Color.white, lastMove := none, gold := goldZ }

/-- The singleton board used by the board-growth witness. -/
def cellsW7 : Finset Pos := {⟨0, 0⟩}

/-- The constant-zero random stream used by the board-growth witness. -/
def randW7 : ℕ → ℚ := fun _ => 0

/-- The king snapshot with a different turn and different gold, used
to witness turn/gold independence. -/
def sW10 : BoardState :=
  { cells := sW.cells, pieces := sW.pieces, turn := Color.black,
    lastMove := none, gold := ⟨5, 3⟩ }

/-- `simulateMove` copies every non-piece field of the snapshot. -/
theorem simulateMove_cells (s : BoardState) (m : Move) :
    (simulateMove s m).cells = s.cells := by
  rw [simulateMove]
  split <;> rfl

/-- `simulateMove` preserves the turn field. -/
theorem simulateMove_turn (s : BoardState) (m : Move) :
    (simulateMove s m).turn = s.turn := by
  rw [simulateMove]
  split <;> rfl

/-- `simulateMove` preserves the last-move field. -/
theorem simulateMove_lastMove (s : BoardState) (m : Move) :
    (simulateMove s m).lastMove = s.lastMove := by
  rw [simulateMove]
  split <;> rfl

/-- `simulateMove` preserves the gold field. -/
theorem simulateMove_gold (s : BoardState) (m : Move) :
    (simulateMove s m).gold = s.gold := by
  rw [simulateMove]
  split <;> rfl

/-- The piece list produced by `simulateMove` is exactly the input
list restricted to the surviving pieces, with the single relocation
applied. -/
theorem simulateMove_pieces_eq (s : BoardState) (m : Move) :
    (simulateMove s m).pieces =
      (s.pieces.filter fun p => decide (simKeeps s m p)).map (moveRelocate m) := by
  have hreloc : (fun p : Piece =>
      if p.pos.x = m.fromPos.x ∧ p.pos.y = m.fromPos.y then
        { p with pos := m.toPos, hasMoved := true }
      else p) = moveRelocate m := rfl
  rw [simulateMove]
  by_cases hep : m.piece.type = PieceType.pawn ∧ m.fromPos.x ≠ m.toPos.x ∧
      getPieceAt s m.toPos = none
  · rw [if_pos hep]
    simp only [hreloc, List.filter_map, List.filter_filter]
    refine congrArg _ (List.filter_congr ?_)
    intro p _
    have hep' : epTriggered s m := hep
    simp [simKeeps, hep', Function.comp, decide_not, Bool.and_comm]
  · rw [if_neg hep]
    simp only [hreloc]
    refine congrArg _ (List.filter_congr ?_)
    intro p _
    have hep' : ¬ epTriggered s m := hep
    simp [simKeeps, hep', decide_not]

/-- Claim C3: `simulateMove` leaves every non-piece field unchanged,
changes no piece's id or type, performs exactly the documented
relocation / capture / en-passant removals, and the surviving piece
count is the input count minus the removed count. -/
theorem simulateMove_frame (s : BoardState) (m : Move) :
    (simulateMove s m).cells = s.cells ∧
    (simulateMove s m).turn = s.turn ∧
    (simulateMove s m).lastMove = s.lastMove ∧
    (simulateMove s m).gold = s.gold ∧
    (simulateMove s m).pieces =
      (s.pieces.filter fun p => decide (simKeeps s m p)).map (moveRelocate m) ∧
    (∀ q ∈ (simulateMove s m).pieces, ∃ p ∈ s.pieces, q.id = p.id ∧ q.type = p.type ∧
      (q = p ∨ (p.pos.x = m.fromPos.x ∧ p.pos.y = m.fromPos.y ∧
        q = { p with pos := m.toPos, hasMoved := true }))) ∧
    (∀ p ∈ s.pieces, simKeeps s m p → moveRelocate m p ∈ (simulateMove s m).pieces) ∧
    (simulateMove s m).pieces.length =
      s.pieces.length - (s.pieces.filter fun p => decide (¬ simKeeps s m p)).length := by
  have hpieces := simulateMove_pieces_eq s m
  refine ⟨simulateMove_cells s m, simulateMove_turn s m, simulateMove_lastMove s m,
    simulateMove_gold s m, hpieces, ?_, ?_, ?_⟩
  · intro q hq
    rw [hpieces] at hq
    rcases List.mem_map.mp hq with ⟨p, hp, hpq⟩
    rcases List.mem_filter.mp hp with ⟨hpmem, -⟩
    refine ⟨p, hpmem, ?_⟩
    rw [← hpq, moveRelocate]
    split
    · next h => exact ⟨rfl, rfl, Or.inr ⟨h.1, h.2, rfl⟩⟩
    · exact ⟨rfl, rfl, Or.inl rfl⟩
  · intro p hp hkeep
    rw [hpieces]
    exact List.mem_map_of_mem _ (List.mem_filter.mpr ⟨hp, by simpa using hkeep⟩)
  · rw [hpieces, List.length_map]
    have := s.pieces.length_eq_length_filter_add (fun p => decide (simKeeps s m p))
    have hnot : (s.pieces.filter fun p => !decide (simKeeps s m p)).length =
        (s.pieces.filter fun p => decide (¬ simKeeps s m p)).length := by
      refine congrArg _ (List.filter_congr ?_)
      intro p _
      simp [decide_not]
    omega

/-- Counterexample to claim C2: in `sC2` every piece stands on a
playable cell and `(6,7)` is returned by `getValidMoves` for the king,
yet after `simulateMove` the king stands on `(6,7)`, which is not in
the cell set: the castling scan never tests cell membership of the
landing square. -/
theorem castling_hop_can_leave_board :
    (∀ p ∈ sC2.pieces, p.pos ∈ sC2.cells) ∧
      (⟨6, 7⟩ : Pos) ∈ getValidMoves sC2 ⟨4, 7⟩ false ∧
      ¬(∀ p ∈ (simulateMove sC2 mvC2).pieces, p.pos ∈ (simulateMove sC2 mvC2).cells) := by
  decide

/-- Claim C2 as amended: under the board invariant, a returned
destination that is itself a playable cell (true of every returned
destination except possibly a castling hop) yields a snapshot that
again satisfies the invariant. -/
theorem member_moves_preserve_board (s : BoardState) (pos : Pos) (piece : Piece) (d : Pos)
    (hinv : ∀ p ∈ s.pieces, p.pos ∈ s.cells)
    (hfind : getPieceAt s pos = some piece)
    (hd : d ∈ getValidMoves s pos false)
    (hmem : d ∈ s.cells) :
    ∀ q ∈ (simulateMove s { fromPos := pos, toPos := d, piece := piece }).pieces,
      q.pos ∈ (simulateMove s { fromPos := pos, toPos := d, piece := piece }).cells := by
  intro q hq
  rw [simulateMove_cells]
  rw [simulateMove_pieces_eq] at hq
  rcases List.mem_map.mp hq with ⟨p, hp, rfl⟩
  rcases List.mem_filter.mp hp with ⟨hpmem, -⟩
  rw [moveRelocate]
  split
  · exact hmem
  · exact hinv p hpmem

/-- Witness for the amended C2: the king move to the playable cell
`(1,0)` keeps every piece on the board. -/
theorem member_moves_preserve_board_witness :
    (∀ p ∈ sW.pieces, p.pos ∈ sW.cells) ∧
      (∀ q ∈ (simulateMove sW { fromPos := ⟨0, 0⟩, toPos := ⟨1, 0⟩, piece := wkW }).pieces,
        q.pos ∈ (simulateMove sW { fromPos := ⟨0, 0⟩, toPos := ⟨1, 0⟩, piece := wkW }).cells) :=
  ⟨by decide,
    member_moves_preserve_board sW ⟨0, 0⟩ wkW ⟨1, 0⟩ (by decide) (by decide) (by decide)
      (by decide)⟩

/-- The castling file scan, when given the exact fuel the terminating
source loop consumes, accepts iff every file it would visit passes the
occupancy and simulated-check tests. -/
theorem castleScan_true_iff (s : BoardState) (piece rook : Piece) (dx : ℤ)
    (hdx : dx = 1 ∨ dx = -1) :
    ∀ (n : ℕ) (x : ℤ), rook.pos.x = x + dx * n →
      (castleScan s piece rook dx (n + 1) x = true ↔
        ∀ j : ℕ, j < n → castleCellOk s piece (x + dx * j)) := by
  intro n
  induction n with
  | zero =>
    intro x hx
    simp only [Nat.cast_zero, mul_zero, add_zero] at hx
    simp [castleScan, hx.symm]
  | succ n ih =>
    intro x hx
    have hne : x ≠ rook.pos.x := by
      rcases hdx with rfl | rfl <;> push_cast at hx <;> omega
    have hx' : rook.pos.x = (x + dx) + dx * n := by
      rcases hdx with rfl | rfl <;> push_cast at hx ⊢ <;> omega
    rw [castleScan, if_neg hne]
    by_cases hocc : (getPieceAt s ⟨x, piece.pos.y⟩).isSome
    · rw [if_pos hocc]
      constructor
      · intro h
        exact absurd h (by simp)
      · intro h
        have h0 := h 0 (Nat.succ_pos n)
        simp only [Nat.cast_zero, mul_zero, add_zero, castleCellOk] at h0
        rw [h0.1] at hocc
        simp at hocc
    · rw [if_neg hocc]
      have hoccn : getPieceAt s ⟨x, piece.pos.y⟩ = none :=
        Option.not_isSome_iff_eq_none.mp hocc
      by_cases hchk : (x - piece.pos.x).natAbs ≤ 2 ∧
          isKingInCheck
            (simulateMove s { fromPos := piece.pos, toPos := ⟨x, piece.pos.y⟩, piece := piece })
            piece.color = true
      · rw [if_pos hchk]
        constructor
        · intro h
          exact absurd h (by simp)
        · intro h
          have h0 := h 0 (Nat.succ_pos n)
          simp only [Nat.cast_zero, mul_zero, add_zero, castleCellOk] at h0
          rw [h0.2 hchk.1] at hchk
          simp at hchk
      · rw [if_neg hchk]
        rw [ih (x + dx) hx']
        constructor
        · intro h j hj
          cases j with
          | zero =>
            simp only [Nat.cast_zero, mul_zero, add_zero, castleCellOk]
            refine ⟨hoccn, fun hle => ?_⟩
            cases hI : isKingInCheck
                (simulateMove s
                  { fromPos := piece.pos, toPos := ⟨x, piece.pos.y⟩, piece := piece })
                piece.color
            · rfl
            · exact absurd ⟨hle, hI⟩ hchk
          | succ j =>
            have hjn := h j (by omega)
            rw [show (x + dx) + dx * (j : ℕ) = x + dx * ((j : ℕ) + 1 : ℤ) from by ring] at hjn
            simpa [add_comm] using hjn
        · intro h j hj
          have hjn := h (j + 1) (by omega)
          rw [show x + dx * ((j + 1 : ℕ) : ℤ) = (x + dx) + dx * (j : ℕ) from by
            push_cast
            ring] at hjn
          exact hjn

/-- Reindexing between the scanned loop counter and the files strictly
between king and rook. -/
theorem forall_between_iff (px rx dx : ℤ) (n : ℕ)
    (hcase : (px < rx ∧ dx = 1 ∧ (n : ℤ) = rx - px) ∨
      (rx < px ∧ dx = -1 ∧ (n : ℤ) = px - rx))
    (P : ℤ → Prop) :
    (∀ j : ℕ, j < n - 1 → P ((px + dx) + dx * j)) ↔
      ∀ x : ℤ, strictBetween px rx x → P x := by
  constructor
  · intro h x hx
    rcases hcase with ⟨h1, rfl, hn⟩ | ⟨h1, rfl, hn⟩
    · rcases hx with ⟨ha, hb⟩ | ⟨ha, hb⟩
      · have hval := h (x - px - 1).toNat (by omega)
        rw [show (px + 1) + 1 * ((x - px - 1).toNat : ℤ) = x from by omega] at hval
        exact hval
      · exfalso
        omega
    · rcases hx with ⟨ha, hb⟩ | ⟨ha, hb⟩
      · exfalso
        omega
      · have hval := h (px - x - 1).toNat (by omega)
        rw [show (px + -1) + -1 * ((px - x - 1).toNat : ℤ) = x from by omega] at hval
        exact hval
  · intro h j hj
    rcases hcase with ⟨h1, rfl, hn⟩ | ⟨h1, rfl, hn⟩
    · refine h _ (Or.inl ⟨by omega, by omega⟩)
    · refine h _ (Or.inr ⟨by omega, by omega⟩)

/-- Membership in the per-rook castling accumulation. -/
theorem mem_castleRooks (s : BoardState) (piece : Piece) (d : Pos) :
    ∀ l : List Piece, (d ∈ castleRooks s piece l ↔
      ∃ rook ∈ l,
        castleScan s piece rook (castleDx piece rook)
          (rook.pos.x - piece.pos.x).natAbs (piece.pos.x + castleDx piece rook) = true ∧
        d = ⟨piece.pos.x + 2 * castleDx piece rook, piece.pos.y⟩) := by
  intro l
  induction l with
  | nil => simp [castleRooks]
  | cons rook rest ih =>
    simp only [castleRooks]
    rw [show (if rook.pos.x > piece.pos.x then (1 : ℤ) else -1) = castleDx piece rook
      from rfl]
    constructor
    · intro h
      rcases List.mem_append.mp h with h1 | h2
      · by_cases hscan : castleScan s piece rook (castleDx piece rook)
            (rook.pos.x - piece.pos.x).natAbs (piece.pos.x + castleDx piece rook) = true
        · rw [if_pos hscan] at h1
          rcases List.mem_singleton.mp h1 with rfl
          exact ⟨rook, List.mem_cons_self rook rest, hscan, rfl⟩
        · rw [if_neg hscan] at h1
          exact absurd h1 (List.not_mem_nil d)
      · rcases ih.mp h2 with ⟨r, hr, hs, hd⟩
        exact ⟨r, List.mem_cons_of_mem rook hr, hs, hd⟩
    · rintro ⟨r, hr, hs, hd⟩
      rcases List.mem_cons.mp hr with rfl | hr'
      · refine List.mem_append.mpr (Or.inl ?_)
        rw [if_pos hs]
        exact List.mem_singleton.mpr hd
      · exact List.mem_append.mpr (Or.inr (ih.mpr ⟨r, hr', hs, hd⟩))

/-- Counterexample to claim C4: in `sC4` the white king has not moved,
both squares strictly between king and rook are empty, and the king's
simulated moves to the two squares it would cross leave it out of
check, yet `getCastlingMoves` yields nothing — the source also refuses
castling whenever the king is currently in check, a refusal condition
the claim does not list. -/
theorem castling_refused_while_in_check :
    wkC4.hasMoved = false ∧
      wrC4 ∈ sC4.pieces ∧ wrC4.type = PieceType.rook ∧ wrC4.color = wkC4.color ∧
      wrC4.hasMoved = false ∧
      getPieceAt sC4 ⟨5, 7⟩ = none ∧ getPieceAt sC4 ⟨6, 7⟩ = none ∧
      isKingInCheck
        (simulateMove sC4 { fromPos := ⟨4, 7⟩, toPos := ⟨5, 7⟩, piece := wkC4 })
        Color.white = false ∧
      isKingInCheck
        (simulateMove sC4 { fromPos := ⟨4, 7⟩, toPos := ⟨6, 7⟩, piece := wkC4 })
        Color.white = false ∧
      getCastlingMoves sC4 wkC4 = [] := by
  decide

/-- Claim C4 as amended: provided no eligible rook shares the king's
file (there the source loop would not terminate), `getCastlingMoves`
yields a destination iff the king has not moved, is not currently in
check, and some same-color unmoved rook has every strictly-intervening
file unoccupied and — for the files within two of the king — safe for
the king's simulated visit; the destination is the two-square hop
toward that rook. -/
theorem castling_moves_exact (s : BoardState) (piece : Piece)
    (hrooks : ∀ r ∈ s.pieces, r.type = PieceType.rook → r.color = piece.color →
      r.hasMoved = false → r.pos.x ≠ piece.pos.x) (d : Pos) :
    d ∈ getCastlingMoves s piece ↔
      piece.hasMoved = false ∧ isKingInCheck s piece.color = false ∧
        ∃ rook ∈ s.pieces, rook.type = PieceType.rook ∧ rook.color = piece.color ∧
          rook.hasMoved = false ∧
          d = ⟨piece.pos.x + 2 * castleDx piece rook, piece.pos.y⟩ ∧
          ∀ x : ℤ, strictBetween piece.pos.x rook.pos.x x → castleCellOk s piece x := by
  rw [getCastlingMoves]
  by_cases hguard : piece.hasMoved || isKingInCheck s piece.color
  · rw [if_pos hguard]
    simp only [List.not_mem_nil, false_iff]
    rintro ⟨hmv, hchk, -⟩
    rw [hmv, hchk] at hguard
    simp at hguard
  · rw [if_neg hguard]
    simp only [Bool.or_eq_true, not_or, Bool.not_eq_true] at hguard
    rw [mem_castleRooks]
    simp only [hguard.1, hguard.2, true_and]
    constructor
    · rintro ⟨rook, hrm, hscan, hd⟩
      rcases List.mem_filter.mp hrm with ⟨hrmem, hrprops⟩
      have hrprops' : rook.type = PieceType.rook ∧ rook.color = piece.color ∧
          rook.hasMoved = false := by simpa using hrprops
      refine ⟨rook, hrmem, hrprops'.1, hrprops'.2.1, hrprops'.2.2, hd, ?_⟩
      have hneq : rook.pos.x ≠ piece.pos.x :=
        hrooks rook hrmem hrprops'.1 hrprops'.2.1 hrprops'.2.2
      have hdx : castleDx piece rook = 1 ∨ castleDx piece rook = -1 := by
        unfold castleDx
        split
        · exact Or.inl rfl
        · exact Or.inr rfl
      have hN : 1 ≤ (rook.pos.x - piece.pos.x).natAbs := by omega
      have harith : rook.pos.x =
          (piece.pos.x + castleDx piece rook) +
            castleDx piece rook * (((rook.pos.x - piece.pos.x).natAbs - 1 : ℕ)) := by
        unfold castleDx
        split <;> push_cast <;> omega
      have hiff := castleScan_true_iff s piece rook (castleDx piece rook) hdx
        ((rook.pos.x - piece.pos.x).natAbs - 1) (piece.pos.x + castleDx piece rook) harith
      rw [show ((rook.pos.x - piece.pos.x).natAbs - 1) + 1 =
        (rook.pos.x - piece.pos.x).natAbs from by omega] at hiff
      have hall := hiff.mp hscan
      rw [forall_between_iff piece.pos.x rook.pos.x (castleDx piece rook)
        (rook.pos.x - piece.pos.x).natAbs ?_ (castleCellOk s piece)] at hall
      · exact hall
      · unfold castleDx
        rcases lt_or_gt_of_ne hneq with hlt | hgt
        · rw [if_neg (by omega)]
          exact Or.inr ⟨hlt, rfl, by omega⟩
        · rw [if_pos (by omega)]
          exact Or.inl ⟨hgt, rfl, by omega⟩
    · rintro ⟨rook, hrmem, ht, hc, hm, hd, hall⟩
      have hneq : rook.pos.x ≠ piece.pos.x := hrooks rook hrmem ht hc hm
      have hdx : castleDx piece rook = 1 ∨ castleDx piece rook = -1 := by
        unfold castleDx
        split
        · exact Or.inl rfl
        · exact Or.inr rfl
      have hN : 1 ≤ (rook.pos.x - piece.pos.x).natAbs := by omega
      have harith : rook.pos.x =
          (piece.pos.x + castleDx piece rook) +
            castleDx piece rook * (((rook.pos.x - piece.pos.x).natAbs - 1 : ℕ)) := by
        unfold castleDx
        split <;> push_cast <;> omega
      have hiff := castleScan_true_iff s piece rook (castleDx piece rook) hdx
        ((rook.pos.x - piece.pos.x).natAbs - 1) (piece.pos.x + castleDx piece rook) harith
      rw [show ((rook.pos.x - piece.pos.x).natAbs - 1) + 1 =
        (rook.pos.x - piece.pos.x).natAbs from by omega] at hiff
      refine ⟨rook, List.mem_filter.mpr ⟨hrmem, by simp [ht, hc, hm]⟩, ?_, hd⟩
      apply hiff.mpr
      rw [forall_between_iff piece.pos.x rook.pos.x (castleDx piece rook)
        (rook.pos.x - piece.pos.x).natAbs ?_ (castleCellOk s piece)]
      · exact hall
      · unfold castleDx
        rcases lt_or_gt_of_ne hneq with hlt | hgt
        · rw [if_neg (by omega)]
          exact Or.inr ⟨hlt, rfl, by omega⟩
        · rw [if_pos (by omega)]
          exact Or.inl ⟨hgt, rfl, by omega⟩

/-- Witness for the amended C4: in the off-board-castling snapshot the
side condition holds and the characterization applies at `(6,7)`. -/
theorem castling_moves_exact_witness :
    (∀ r ∈ sC2.pieces, r.type = PieceType.rook → r.color = wkC2.color →
      r.hasMoved = false → r.pos.x ≠ wkC2.pos.x) ∧
      ((⟨6, 7⟩ : Pos) ∈ getCastlingMoves sC2 wkC2 ↔
        wkC2.hasMoved = false ∧ isKingInCheck sC2 wkC2.color = false ∧
          ∃ rook ∈ sC2.pieces, rook.type = PieceType.rook ∧ rook.color = wkC2.color ∧
            rook.hasMoved = false ∧
            (⟨6, 7⟩ : Pos) = ⟨wkC2.pos.x + 2 * castleDx wkC2 rook, wkC2.pos.y⟩ ∧
            ∀ x : ℤ, strictBetween wkC2.pos.x rook.pos.x x → castleCellOk sC2 wkC2 x) :=
  ⟨by decide, castling_moves_exact sC2 wkC2 (by decide) ⟨6, 7⟩⟩

/-- Membership in one diagonal capture probe of `getPawnMoves`. -/
theorem mem_pawnCapture (s : BoardState) (piece : Piece) (c d : Pos) :
    d ∈ pawnCapture s piece c ↔
      c ∈ s.cells ∧ d = c ∧
        ((∃ q, getPieceAt s c = some q ∧ q.color ≠ piece.color) ∨
          (getPieceAt s c = none ∧ ∃ lm, s.lastMove = some lm ∧
            lm.piece.type = PieceType.pawn ∧ lm.toPos.x = c.x ∧
            lm.toPos.y = piece.pos.y ∧ (lm.fromPos.y - lm.toPos.y).natAbs = 2)) := by
  rw [pawnCapture]
  by_cases hc : c ∈ s.cells
  · rw [if_pos hc]
    cases hq : getPieceAt s c with
    | some q =>
      by_cases hcol : q.color ≠ piece.color
      · simp [hq, hcol, hc]
      · simp [hq, hcol, hc]
    | none =>
      cases hlm : s.lastMove with
      | some lm =>
        dsimp only
        by_cases hcond : lm.piece.type = PieceType.pawn ∧ lm.toPos.x = c.x ∧
            lm.toPos.y = piece.pos.y ∧ (lm.fromPos.y - lm.toPos.y).natAbs = 2
        · rw [if_pos hcond]
          constructor
          · intro h
            rcases List.mem_singleton.mp h with rfl
            exact ⟨hc, rfl, Or.inr ⟨rfl, lm, rfl, hcond⟩⟩
          · rintro ⟨-, rfl, -⟩
            exact List.mem_singleton.mpr rfl
        · rw [if_neg hcond]
          simp only [List.not_mem_nil, false_iff]
          rintro ⟨-, rfl, h | h⟩
          · rcases h with ⟨q, hsome, -⟩
            exact Option.noConfusion hsome
          · rcases h with ⟨-, lm', hlm', hconds⟩
            cases Option.some.inj hlm'
            exact hcond hconds
      | none =>
        dsimp only
        simp only [List.not_mem_nil, false_iff]
        rintro ⟨-, rfl, h | h⟩
        · rcases h with ⟨q, hsome, -⟩
          exact Option.noConfusion hsome
        · rcases h with ⟨-, lm', hlm', -⟩
          exact Option.noConfusion hlm'
  · rw [if_neg hc]
    simp [hc]

/-- Claim C5: `getPawnMoves` returns exactly the single forward step
onto an empty playable cell, the double step from the literal start
rank through two empty playable cells, the diagonal captures of enemy
pieces, and the en-passant diagonals enabled by the last move. -/
theorem pawn_moves_exact (s : BoardState) (piece : Piece)
    (htype : piece.type = PieceType.pawn) (d : Pos) :
    d ∈ getPawnMoves s piece ↔
      (d = ⟨piece.pos.x, piece.pos.y + pawnDir piece.color⟩ ∧
        (⟨piece.pos.x, piece.pos.y + pawnDir piece.color⟩ : Pos) ∈ s.cells ∧
        getPieceAt s ⟨piece.pos.x, piece.pos.y + pawnDir piece.color⟩ = none) ∨
      (d = ⟨piece.pos.x, piece.pos.y + 2 * pawnDir piece.color⟩ ∧
        piece.pos.y = pawnStartY piece.color ∧
        (⟨piece.pos.x, piece.pos.y + pawnDir piece.color⟩ : Pos) ∈ s.cells ∧
        getPieceAt s ⟨piece.pos.x, piece.pos.y + pawnDir piece.color⟩ = none ∧
        (⟨piece.pos.x, piece.pos.y + 2 * pawnDir piece.color⟩ : Pos) ∈ s.cells ∧
        getPieceAt s ⟨piece.pos.x, piece.pos.y + 2 * pawnDir piece.color⟩ = none) ∨
      ((d = ⟨piece.pos.x - 1, piece.pos.y + pawnDir piece.color⟩ ∨
          d = ⟨piece.pos.x + 1, piece.pos.y + pawnDir piece.color⟩) ∧
        d ∈ s.cells ∧
        ((∃ q, getPieceAt s d = some q ∧ q.color ≠ piece.color) ∨
          (getPieceAt s d = none ∧ ∃ lm, s.lastMove = some lm ∧
            lm.piece.type = PieceType.pawn ∧ lm.toPos.x = d.x ∧
            lm.toPos.y = piece.pos.y ∧ (lm.fromPos.y - lm.toPos.y).natAbs = 2))) := by
  simp only [pawnDir, pawnStartY]
  rw [getPawnMoves]
  simp only [List.mem_append, mem_pawnCapture]
  constructor
  · intro h
    rcases h with (hf | hcap) | hcap
    · by_cases hA : (⟨piece.pos.x, piece.pos.y +
            (if piece.color = Color.white then (-1 : ℤ) else 1)⟩ : Pos) ∈ s.cells ∧
          getPieceAt s ⟨piece.pos.x, piece.pos.y +
            (if piece.color = Color.white then (-1 : ℤ) else 1)⟩ = none
      · rw [if_pos hA] at hf
        rcases List.mem_cons.mp hf with rfl | hf2
        · exact Or.inl ⟨rfl, hA.1, hA.2⟩
        · by_cases hB : piece.pos.y = (if piece.color = Color.white then (6 : ℤ) else 1) ∧
              (⟨piece.pos.x, piece.pos.y +
                2 * (if piece.color = Color.white then (-1 : ℤ) else 1)⟩ : Pos) ∈ s.cells ∧
              getPieceAt s ⟨piece.pos.x, piece.pos.y +
                2 * (if piece.color = Color.white then (-1 : ℤ) else 1)⟩ = none
          · rw [if_pos hB] at hf2
            rcases List.mem_singleton.mp hf2 with rfl
            exact Or.inr (Or.inl ⟨rfl, hB.1, hA.1, hA.2, hB.2.1, hB.2.2⟩)
          · rw [if_neg hB] at hf2
            exact absurd hf2 (List.not_mem_nil d)
      · rw [if_neg hA] at hf
        exact absurd hf (List.not_mem_nil d)
    · rcases hcap with ⟨hc, rfl, hrest⟩
      exact Or.inr (Or.inr ⟨Or.inl rfl, hc, hrest⟩)
    · rcases hcap with ⟨hc, rfl, hrest⟩
      exact Or.inr (Or.inr ⟨Or.inr rfl, hc, hrest⟩)
  · intro h
    rcases h with ⟨rfl, hA1, hA2⟩ | ⟨rfl, hB0, hA1, hA2, hB1, hB2⟩ | ⟨hd, hc, hrest⟩
    · refine Or.inl (Or.inl ?_)
      rw [if_pos ⟨hA1, hA2⟩]
      exact List.mem_cons_self _ _
    · refine Or.inl (Or.inl ?_)
      rw [if_pos ⟨hA1, hA2⟩]
      refine List.mem_cons_of_mem _ ?_
      rw [if_pos ⟨hB0, hB1, hB2⟩]
      exact List.mem_singleton.mpr rfl
    · rcases hd with rfl | rfl
      · exact Or.inl (Or.inr ⟨hc, rfl, hrest⟩)
      · exact Or.inr ⟨hc, rfl, hrest⟩

/-- Witness for C5: the characterization applied to the start-rank
white pawn and its single forward step. -/
theorem pawn_moves_exact_witness :
    wpW.type = PieceType.pawn ∧
      ((⟨4, 5⟩ : Pos) ∈ getPawnMoves sP5 wpW ↔
        ((⟨4, 5⟩ : Pos) = ⟨wpW.pos.x, wpW.pos.y + pawnDir wpW.color⟩ ∧
          (⟨wpW.pos.x, wpW.pos.y + pawnDir wpW.color⟩ : Pos) ∈ sP5.cells ∧
          getPieceAt sP5 ⟨wpW.pos.x, wpW.pos.y + pawnDir wpW.color⟩ = none) ∨
        ((⟨4, 5⟩ : Pos) = ⟨wpW.pos.x, wpW.pos.y + 2 * pawnDir wpW.color⟩ ∧
          wpW.pos.y = pawnStartY wpW.color ∧
          (⟨wpW.pos.x, wpW.pos.y + pawnDir wpW.color⟩ : Pos) ∈ sP5.cells ∧
          getPieceAt sP5 ⟨wpW.pos.x, wpW.pos.y + pawnDir wpW.color⟩ = none ∧
          (⟨wpW.pos.x, wpW.pos.y + 2 * pawnDir wpW.color⟩ : Pos) ∈ sP5.cells ∧
          getPieceAt sP5 ⟨wpW.pos.x, wpW.pos.y + 2 * pawnDir wpW.color⟩ = none) ∨
        (((⟨4, 5⟩ : Pos) = ⟨wpW.pos.x - 1, wpW.pos.y + pawnDir wpW.color⟩ ∨
            (⟨4, 5⟩ : Pos) = ⟨wpW.pos.x + 1, wpW.pos.y + pawnDir wpW.color⟩) ∧
          (⟨4, 5⟩ : Pos) ∈ sP5.cells ∧
          ((∃ q, getPieceAt sP5 ⟨4, 5⟩ = some q ∧ q.color ≠ wpW.color) ∨
            (getPieceAt sP5 ⟨4, 5⟩ = none ∧ ∃ lm, sP5.lastMove = some lm ∧
              lm.piece.type = PieceType.pawn ∧ lm.toPos.x = (⟨4, 5⟩ : Pos).x ∧
              lm.toPos.y = wpW.pos.y ∧ (lm.fromPos.y - lm.toPos.y).natAbs = 2)))) :=
  ⟨by decide, pawn_moves_exact sP5 wpW (by decide) ⟨4, 5⟩⟩

/-- The zeroth ray cell is the start position. -/
theorem rayCell_zero (p dir : Pos) : rayCell p dir 0 = p := by
  simp [rayCell]

/-- Shifting the ray start by one step. -/
theorem rayCell_succ_shift (p dir : Pos) (k : ℕ) :
    rayCell p dir (k + 1) = rayCell (step p dir) dir k := by
  simp only [rayCell, step]
  congr 1 <;> push_cast <;> ring

/-- Membership in the fuelled sliding walk: the destinations are the
ray cells preceded by empty playable cells, ending on a playable cell
that is empty or holds an enemy piece, with the index below the fuel. -/
theorem mem_slideRay (s : BoardState) (c : Color) (dir : Pos) :
    ∀ (n : ℕ) (cur d : Pos),
      (d ∈ slideRay s c dir n cur ↔
        ∃ k : ℕ, k < n ∧ d = rayCell cur dir k ∧
          (∀ j : ℕ, j < k → rayCell cur dir j ∈ s.cells ∧
            getPieceAt s (rayCell cur dir j) = none) ∧
          rayCell cur dir k ∈ s.cells ∧
          (∀ q, getPieceAt s (rayCell cur dir k) = some q → q.color ≠ c)) := by
  intro n
  induction n with
  | zero =>
    intro cur d
    simp [slideRay]
  | succ n ih =>
    intro cur d
    rw [slideRay]
    by_cases hcur : cur ∈ s.cells
    · rw [if_pos hcur]
      cases hq : getPieceAt s cur with
      | none =>
        dsimp only
        constructor
        · intro h
          rcases List.mem_cons.mp h with rfl | h2
          · refine ⟨0, Nat.succ_pos n, (rayCell_zero _ dir).symm,
              fun j hj => absurd hj (Nat.not_lt_zero j), ?_, ?_⟩
            · rw [rayCell_zero]
              exact hcur
            · intro q hq'
              rw [rayCell_zero, hq] at hq'
              exact Option.noConfusion hq'
          · rcases (ih (step cur dir) d).mp h2 with ⟨k, hk, hd, hmid, hfin, hcol⟩
            refine ⟨k + 1, by omega, ?_, ?_, ?_, ?_⟩
            · rw [rayCell_succ_shift]
              exact hd
            · intro j hj
              cases j with
              | zero =>
                rw [rayCell_zero]
                exact ⟨hcur, hq⟩
              | succ j =>
                rw [rayCell_succ_shift]
                exact hmid j (by omega)
            · rw [rayCell_succ_shift]
              exact hfin
            · rw [rayCell_succ_shift]
              exact hcol
        · rintro ⟨k, hk, hd, hmid, hfin, hcol⟩
          cases k with
          | zero =>
            rw [rayCell_zero] at hd
            subst hd
            exact List.mem_cons_self _ _
          | succ k =>
            refine List.mem_cons_of_mem _ ((ih (step cur dir) d).mpr
              ⟨k, by omega, ?_, ?_, ?_, ?_⟩)
            · rw [← rayCell_succ_shift]
              exact hd
            · intro j hj
              rw [← rayCell_succ_shift]
              exact hmid (j + 1) (by omega)
            · rw [← rayCell_succ_shift]
              exact hfin
            · rw [← rayCell_succ_shift]
              exact hcol
      | some target =>
        dsimp only
        by_cases hcol : target.color ≠ c
        · rw [if_pos hcol]
          constructor
          · intro h
            rcases List.mem_singleton.mp h with rfl
            refine ⟨0, Nat.succ_pos n, (rayCell_zero _ dir).symm,
              fun j hj => absurd hj (Nat.not_lt_zero j), ?_, ?_⟩
            · rw [rayCell_zero]
              exact hcur
            · intro q hq'
              rw [rayCell_zero, hq] at hq'
              cases Option.some.inj hq'
              exact hcol
          · rintro ⟨k, hk, hd, hmid, hfin, hcol'⟩
            cases k with
            | zero =>
              rw [rayCell_zero] at hd
              subst hd
              exact List.mem_singleton.mpr rfl
            | succ k =>
              have h0 := (hmid 0 (Nat.succ_pos k)).2
              rw [rayCell_zero, hq] at h0
              exact Option.noConfusion h0
        · rw [if_neg hcol]
          simp only [List.not_mem_nil, false_iff]
          rintro ⟨k, hk, hd, hmid, hfin, hcol'⟩
          cases k with
          | zero =>
            refine hcol (hcol' target ?_)
            rw [rayCell_zero]
            exact hq
          | succ k =>
            have h0 := (hmid 0 (Nat.succ_pos k)).2
            rw [rayCell_zero, hq] at h0
            exact Option.noConfusion h0
    · rw [if_neg hcur]
      simp only [List.not_mem_nil, false_iff]
      rintro ⟨k, hk, hd, hmid, hfin, hcol'⟩
      cases k with
      | zero =>
        rw [rayCell_zero] at hfin
        exact hcur hfin
      | succ k =>
        have h0 := (hmid 0 (Nat.succ_pos k)).1
        rw [rayCell_zero] at h0
        exact hcur h0

/-- A ray through pairwise-distinct playable cells cannot be longer
than the cell set: the fuel `s.cells.card + 1` is never exhausted. -/
theorem ray_bound (s : BoardState) (cur dir : Pos) (hdir : dir ≠ (⟨0, 0⟩ : Pos)) (k : ℕ)
    (hmem : ∀ j : ℕ, j ≤ k → rayCell cur dir j ∈ s.cells) : k < s.cells.card := by
  have hinj : ∀ i j : ℕ, rayCell cur dir i = rayCell cur dir j → i = j := by
    intro i j hij
    have hx : cur.x + dir.x * i = cur.x + dir.x * j := congrArg Pos.x hij
    have hy : cur.y + dir.y * i = cur.y + dir.y * j := congrArg Pos.y hij
    by_cases hdx : dir.x = 0
    · have hdy : dir.y ≠ 0 := by
        intro hdy
        apply hdir
        cases dir
        simp_all
      have hcast : (i : ℤ) = (j : ℤ) :=
        mul_left_cancel₀ hdy (by linarith)
      exact_mod_cast hcast
    · have hcast : (i : ℤ) = (j : ℤ) :=
        mul_left_cancel₀ hdx (by linarith)
      exact_mod_cast hcast
  have hsub : (Finset.range (k + 1)).image (rayCell cur dir) ⊆ s.cells := by
    intro p hp
    rcases Finset.mem_image.mp hp with ⟨j, hj, rfl⟩
    exact hmem j (by
      have := Finset.mem_range.mp hj
      omega)
  have hcard : (Finset.range (k + 1)).card ≤ s.cells.card := by
    calc (Finset.range (k + 1)).card
        = ((Finset.range (k + 1)).image (rayCell cur dir)).card :=
          (Finset.card_image_of_injOn (fun i _ j _ h => hinj i j h)).symm
      _ ≤ s.cells.card := Finset.card_le_card hsub
  simpa using hcard

/-- Membership in `getSlidingMoves` over a direction list. -/
theorem mem_getSlidingMoves (s : BoardState) (piece : Piece) (d : Pos) :
    ∀ dirs : List Pos, (d ∈ getSlidingMoves s piece dirs ↔
      ∃ dir ∈ dirs,
        d ∈ slideRay s piece.color dir (s.cells.card + 1) (step piece.pos dir)) := by
  intro dirs
  induction dirs with
  | nil => simp [getSlidingMoves]
  | cons dir rest ih =>
    rw [getSlidingMoves]
    simp only [List.mem_append, ih, List.mem_cons]
    constructor
    · rintro (h | ⟨dir', hd', hmem⟩)
      · exact ⟨dir, Or.inl rfl, h⟩
      · exact ⟨dir', Or.inr hd', hmem⟩
    · rintro ⟨dir', rfl | hd', hmem⟩
      · exact Or.inl hmem
      · exact Or.inr ⟨dir', hd', hmem⟩

/-- The full-fuel sliding walk along a nonzero direction reaches
exactly the ray cells through empty playable cells up to the first
occupied or missing cell. -/
theorem slideRay_full_iff (s : BoardState) (c : Color) (p dir : Pos)
    (hdir : dir ≠ (⟨0, 0⟩ : Pos)) (d : Pos) :
    d ∈ slideRay s c dir (s.cells.card + 1) (step p dir) ↔
      ∃ k : ℕ, 1 ≤ k ∧ d = rayCell p dir k ∧
        (∀ j : ℕ, 1 ≤ j → j < k → rayCell p dir j ∈ s.cells ∧
          getPieceAt s (rayCell p dir j) = none) ∧
        rayCell p dir k ∈ s.cells ∧
        (∀ q, getPieceAt s (rayCell p dir k) = some q → q.color ≠ c) := by
  rw [mem_slideRay]
  constructor
  · rintro ⟨k, hk, hd, hmid, hfin, hcol⟩
    refine ⟨k + 1, by omega, ?_, ?_, ?_, ?_⟩
    · rw [rayCell_succ_shift]
      exact hd
    · intro j h1 hj
      rcases Nat.exists_eq_add_of_le h1 with ⟨j', rfl⟩
      rw [Nat.add_comm 1 j', rayCell_succ_shift]
      exact hmid j' (by omega)
    · rw [rayCell_succ_shift]
      exact hfin
    · rw [rayCell_succ_shift]
      exact hcol
  · rintro ⟨k, hk, hd, hmid, hfin, hcol⟩
    cases k with
    | zero => exact absurd hk (by omega)
    | succ k' =>
      have hbound : k' < s.cells.card := by
        refine ray_bound s (step p dir) dir hdir k' ?_
        intro j hj
        rw [← rayCell_succ_shift]
        rcases Nat.lt_or_ge j k' with hlt | hge
        · exact (hmid (j + 1) (by omega) (by omega)).1
        · have hjk : j = k' := by omega
          subst hjk
          exact hfin
      refine ⟨k', by omega, ?_, ?_, ?_, ?_⟩
      · rw [← rayCell_succ_shift]
        exact hd
      · intro j hj
        rw [← rayCell_succ_shift]
        exact hmid (j + 1) (by omega) (by omega)
      · rw [← rayCell_succ_shift]
        exact hfin
      · rw [← rayCell_succ_shift]
        exact hcol

/-- Claim C6: for a rook, bishop or queen, the `ignoreCheck` move set
consists exactly, per direction, of the consecutive playable ray cells
up to and including the first occupied one when it holds an enemy
piece, excluding it when friendly, and nothing beyond. -/
theorem sliding_moves_exact (s : BoardState) (pos : Pos) (piece : Piece) (d : Pos)
    (hfind : getPieceAt s pos = some piece)
    (htype : piece.type = PieceType.rook ∨ piece.type = PieceType.bishop ∨
      piece.type = PieceType.queen) :
    d ∈ getValidMoves s pos true ↔
      ∃ dir ∈ slidingDirs piece.type, ∃ k : ℕ, 1 ≤ k ∧ d = rayCell piece.pos dir k ∧
        (∀ j : ℕ, 1 ≤ j → j < k → rayCell piece.pos dir j ∈ s.cells ∧
          getPieceAt s (rayCell piece.pos dir j) = none) ∧
        rayCell piece.pos dir k ∈ s.cells ∧
        (∀ q, getPieceAt s (rayCell piece.pos dir k) = some q → q.color ≠ piece.color) := by
  have hdirs : ∀ dir ∈ slidingDirs piece.type, dir ≠ (⟨0, 0⟩ : Pos) := by
    rcases htype with h | h | h <;> rw [h] <;> decide
  have hmoves : getValidMoves s pos true = getSlidingMoves s piece (slidingDirs piece.type) := by
    rw [getValidMoves, hfind]
    have hnk : ¬(piece.type = PieceType.king ∧ true = false) := by
      rintro ⟨-, h⟩
      exact Bool.noConfusion h
    dsimp only
    rw [if_neg hnk, if_pos rfl]
    rcases htype with h | h | h <;>
      simp only [pieceMovesNoCastle, slidingDirs, h]
  rw [hmoves, mem_getSlidingMoves]
  constructor
  · rintro ⟨dir, hdmem, hmem⟩
    exact ⟨dir, hdmem, (slideRay_full_iff s piece.color piece.pos dir
      (hdirs dir hdmem) d).mp hmem⟩
  · rintro ⟨dir, hdmem, hk⟩
    exact ⟨dir, hdmem, (slideRay_full_iff s piece.color piece.pos dir
      (hdirs dir hdmem) d).mpr hk⟩

/-- Witness for C6: the characterization applies to the rook scenario
with a friendly blocker at `(0,3)` and enemy at `(0,5)`. -/
theorem sliding_moves_exact_witness :
    getPieceAt sR6 ⟨0, 0⟩ = some rkW ∧
      ((⟨0, 1⟩ : Pos) ∈ getValidMoves sR6 ⟨0, 0⟩ true ↔
        ∃ dir ∈ slidingDirs rkW.type, ∃ k : ℕ, 1 ≤ k ∧
          (⟨0, 1⟩ : Pos) = rayCell rkW.pos dir k ∧
          (∀ j : ℕ, 1 ≤ j → j < k → rayCell rkW.pos dir j ∈ sR6.cells ∧
            getPieceAt sR6 (rayCell rkW.pos dir j) = none) ∧
          rayCell rkW.pos dir k ∈ sR6.cells ∧
          (∀ q, getPieceAt sR6 (rayCell rkW.pos dir k) = some q → q.color ≠ rkW.color)) :=
  ⟨by decide, sliding_moves_exact sR6 ⟨0, 0⟩ rkW ⟨0, 1⟩ (by decide) (Or.inl (by decide))⟩

/-- JavaScript indexing with a valid random draw into a nonempty list
succeeds. -/
theorem jsIndex_some {α : Type} (l : List α) (q : ℚ) (hne : l ≠ [])
    (h0 : 0 ≤ q) (h1 : q < 1) : ∃ a, jsIndex l q = some a := by
  rw [jsIndex]
  have hlen : 0 < (l.length : ℚ) := by
    have := List.length_pos.mpr hne
    exact_mod_cast this
  have hq0 : (0 : ℤ) ≤ ⌊q * l.length⌋ :=
    Int.floor_nonneg.mpr (mul_nonneg h0 (le_of_lt hlen))
  rw [if_pos hq0]
  have hlt : ⌊q * l.length⌋ < (l.length : ℤ) := by
    refine Int.floor_lt.mpr ?_
    push_cast
    calc q * l.length < 1 * l.length := by
          exact mul_lt_mul_of_pos_right h1 hlen
      _ = l.length := one_mul _
  have htn : ⌊q * l.length⌋.toNat < l.length := by omega
  exact ⟨l.get ⟨_, htn⟩, by rw [List.get?_eq_get htn]⟩

/-- Invariant of the `expandBoard` retry loop: for a nonempty cell
list and a valid random stream the loop never crashes, only grows the
set, adds exactly `added` new cells, and never exceeds the target. -/
theorem expandLoop_spec (rand : ℕ → ℚ) (hr : ∀ i, 0 ≤ rand i ∧ rand i < 1)
    (currentCells : List Pos) (hne : currentCells ≠ []) (count : ℤ) :
    ∀ (fuel i : ℕ) (acc : Finset Pos) (added : ℕ), (added : ℤ) ≤ count →
      ∃ out added',
        expandLoop rand currentCells count fuel i acc added = some (out, added') ∧
        acc ⊆ out ∧ out.card + added = acc.card + added' ∧ added ≤ added' ∧
        (added' : ℤ) ≤ count := by
  intro fuel
  induction fuel with
  | zero =>
    intro i acc added hadd
    exact ⟨acc, added, rfl, Finset.Subset.refl acc, rfl, Nat.le_refl added, hadd⟩
  | succ fuel ih =>
    intro i acc added hadd
    rw [expandLoop]
    by_cases hlt : (added : ℤ) < count
    · rw [if_pos hlt]
      obtain ⟨cell, hcell⟩ := jsIndex_some currentCells (rand i) hne (hr i).1 (hr i).2
      rw [hcell]
      dsimp only
      obtain ⟨target, htarget⟩ := jsIndex_some
        [(⟨cell.x + 1, cell.y⟩ : Pos), ⟨cell.x - 1, cell.y⟩,
          ⟨cell.x, cell.y + 1⟩, ⟨cell.x, cell.y - 1⟩]
        (rand (i + 1)) (by simp) (hr (i + 1)).1 (hr (i + 1)).2
      rw [htarget]
      dsimp only
      by_cases hmem : target ∈ acc
      · rw [if_pos hmem]
        exact ih (i + 2) acc added hadd
      · rw [if_neg hmem]
        obtain ⟨out, added', heq, hsub, hcard, hle, hcount⟩ :=
          ih (i + 2) (insert target acc) (added + 1) (by omega)
        refine ⟨out, added', heq,
          fun a ha => hsub (Finset.mem_insert_of_mem ha), ?_, by omega, hcount⟩
        rw [Finset.card_insert_of_not_mem hmem] at hcard
        omega
    · rw [if_neg hlt]
      exact ⟨acc, added, rfl, Finset.Subset.refl acc, rfl, Nat.le_refl added, hadd⟩

/-- Counterexample to claim C7: on the empty cell set (with any valid
random stream, here the constant `0`) the source indexes into an empty
array and dereferences `undefined`; the model returns `none` instead
of a grown set. -/
theorem expandBoard_crashes_on_empty :
    (∀ i : ℕ, 0 ≤ (0 : ℚ) ∧ (0 : ℚ) < 1) ∧
      expandBoard (∅ : Finset Pos) (fun _ => 0) = none := by
  refine ⟨fun _ => ⟨le_refl 0, by norm_num⟩, ?_⟩
  have key : ∀ (fuel i : ℕ) (acc : Finset Pos) (added : ℕ) (count : ℤ) (rand : ℕ → ℚ),
      (added : ℤ) < count →
      expandLoop rand [] count (fuel + 1) i acc added = none := by
    intro fuel i acc added count rand hlt
    rw [expandLoop, if_pos hlt]
    have hnone : jsIndex ([] : List Pos) (rand i) = none := by
      simp [jsIndex]
    rw [hnone]
  have hcl : cellList (∅ : Finset Pos) = [] := by
    rw [cellList]
    exact Finset.sort_empty _
  rw [expandBoard]
  rw [hcl, show (50 : ℕ) = 49 + 1 from by norm_num]
  apply key
  norm_num

/-- Claim C7 as amended: for every nonempty input cell set and valid
random stream, `expandBoard` succeeds, returns a superset of the
input, reports exactly the number of cells added (at most 8), and
returns the input unchanged when nothing was added. -/
theorem expandBoard_spec (cells : Finset Pos) (rand : ℕ → ℚ)
    (hne : cells.Nonempty) (hr : ∀ i, 0 ≤ rand i ∧ rand i < 1) :
    ∃ out added, expandBoard cells rand = some (out, added) ∧
      cells ⊆ out ∧ out.card = cells.card + added ∧ added ≤ 8 ∧
      (added = 0 → out = cells) := by
  have hlist : cellList cells ≠ [] := by
    rcases hne with ⟨a, ha⟩
    intro h
    have hmem : a ∈ cellList cells := by
      rw [cellList]
      exact (Finset.mem_sort _).mpr ha
    rw [h] at hmem
    exact List.not_mem_nil a hmem
  have hfloor0 : (0 : ℤ) ≤ ⌊rand 0 * 8⌋ :=
    Int.floor_nonneg.mpr (mul_nonneg (hr 0).1 (by norm_num))
  have hfloor8 : ⌊rand 0 * 8⌋ < 8 := by
    refine Int.floor_lt.mpr ?_
    push_cast
    calc rand 0 * 8 < 1 * 8 := mul_lt_mul_of_pos_right (hr 0).2 (by norm_num)
      _ = 8 := one_mul 8
  obtain ⟨out, added, heq, hsub, hcard, -, hle⟩ :=
    expandLoop_spec rand hr (cellList cells) hlist (⌊rand 0 * 8⌋ + 1) 50 1 cells 0
      (by omega)
  refine ⟨out, added, heq, hsub, by omega, by omega, ?_⟩
  intro h0
  subst h0
  exact (Finset.eq_of_subset_of_card_le hsub (by omega)).symm

/-- Witness for the amended C7: the singleton board with the constant
zero stream. -/
theorem expandBoard_spec_witness :
    cellsW7.Nonempty ∧
      ∃ out added, expandBoard cellsW7 randW7 = some (out, added) ∧
        cellsW7 ⊆ out ∧ out.card = cellsW7.card + added ∧ added ≤ 8 ∧
        (added = 0 → out = cellsW7) :=
  ⟨⟨⟨0, 0⟩, by decide⟩,
    expandBoard_spec cellsW7 randW7 ⟨⟨0, 0⟩, by decide⟩ (fun i => by norm_num [randW7])⟩

/-- `getPieceAt` only reads the piece list. -/
theorem getPieceAt_congr (s₁ s₂ : BoardState) (hp : s₁.pieces = s₂.pieces) :
    getPieceAt s₁ = getPieceAt s₂ := by
  funext pos
  rw [getPieceAt, getPieceAt, hp]

/-- `pawnCapture` only reads cells, pieces and the last move. -/
theorem pawnCapture_congr (s₁ s₂ : BoardState) (hc : s₁.cells = s₂.cells)
    (hp : s₁.pieces = s₂.pieces) (hl : s₁.lastMove = s₂.lastMove) :
    pawnCapture s₁ = pawnCapture s₂ := by
  funext piece c
  rw [pawnCapture, pawnCapture, hc, hl, getPieceAt_congr s₁ s₂ hp]

/-- `getPawnMoves` only reads cells, pieces and the last move. -/
theorem getPawnMoves_congr (s₁ s₂ : BoardState) (hc : s₁.cells = s₂.cells)
    (hp : s₁.pieces = s₂.pieces) (hl : s₁.lastMove = s₂.lastMove) :
    getPawnMoves s₁ = getPawnMoves s₂ := by
  funext piece
  rw [getPawnMoves, getPawnMoves, hc, getPieceAt_congr s₁ s₂ hp,
    pawnCapture_congr s₁ s₂ hc hp hl]

/-- `slideRay` only reads cells and pieces. -/
theorem slideRay_congr (s₁ s₂ : BoardState) (hc : s₁.cells = s₂.cells)
    (hp : s₁.pieces = s₂.pieces) (c : Color) (dir : Pos) :
    ∀ (n : ℕ) (cur : Pos), slideRay s₁ c dir n cur = slideRay s₂ c dir n cur := by
  intro n
  induction n with
  | zero =>
    intro cur
    rfl
  | succ n ih =>
    intro cur
    rw [slideRay, slideRay, hc, getPieceAt_congr s₁ s₂ hp]
    simp only [ih]

/-- `getSlidingMoves` only reads cells and pieces. -/
theorem getSlidingMoves_congr (s₁ s₂ : BoardState) (hc : s₁.cells = s₂.cells)
    (hp : s₁.pieces = s₂.pieces) (piece : Piece) :
    ∀ dirs : List Pos, getSlidingMoves s₁ piece dirs = getSlidingMoves s₂ piece dirs := by
  intro dirs
  induction dirs with
  | nil => rfl
  | cons dir rest ih =>
    rw [getSlidingMoves, getSlidingMoves, hc, slideRay_congr s₁ s₂ hc hp, ih]

/-- `offsetMoves` only reads cells and pieces. -/
theorem offsetMoves_congr (s₁ s₂ : BoardState) (hc : s₁.cells = s₂.cells)
    (hp : s₁.pieces = s₂.pieces) :
    offsetMoves s₁ = offsetMoves s₂ := by
  funext piece diffs
  rw [offsetMoves, offsetMoves, hc, getPieceAt_congr s₁ s₂ hp]

/-- The per-type move switch only reads cells, pieces and last move. -/
theorem pieceMovesNoCastle_congr (s₁ s₂ : BoardState) (hc : s₁.cells = s₂.cells)
    (hp : s₁.pieces = s₂.pieces) (hl : s₁.lastMove = s₂.lastMove) :
    pieceMovesNoCastle s₁ = pieceMovesNoCastle s₂ := by
  funext piece
  obtain ⟨pid, pt, pc, pp, phm, pg, pm⟩ := piece
  cases pt <;>
    simp only [pieceMovesNoCastle, getPawnMoves_congr s₁ s₂ hc hp hl,
      getSlidingMoves_congr s₁ s₂ hc hp, getKnightMoves, getKingMoves,
      offsetMoves_congr s₁ s₂ hc hp]

/-- The `ignoreCheck` entry point only reads cells, pieces, last move. -/
theorem getValidMovesIgnore_congr (s₁ s₂ : BoardState) (hc : s₁.cells = s₂.cells)
    (hp : s₁.pieces = s₂.pieces) (hl : s₁.lastMove = s₂.lastMove) :
    getValidMovesIgnore s₁ = getValidMovesIgnore s₂ := by
  funext pos
  rw [getValidMovesIgnore, getValidMovesIgnore, getPieceAt_congr s₁ s₂ hp,
    pieceMovesNoCastle_congr s₁ s₂ hc hp hl]

/-- The check oracle only reads cells, pieces and the last move. -/
theorem isKingInCheck_congr (s₁ s₂ : BoardState) (hc : s₁.cells = s₂.cells)
    (hp : s₁.pieces = s₂.pieces) (hl : s₁.lastMove = s₂.lastMove) :
    isKingInCheck s₁ = isKingInCheck s₂ := by
  funext color
  rw [isKingInCheck, isKingInCheck, hp, getValidMovesIgnore_congr s₁ s₂ hc hp hl]

/-- The simulated-piece list only depends on cells, pieces, last move
(in fact only on the pieces and the move). -/
theorem simulateMove_pieces_congr (s₁ s₂ : BoardState) (hp : s₁.pieces = s₂.pieces)
    (m : Move) : (simulateMove s₁ m).pieces = (simulateMove s₂ m).pieces := by
  rw [simulateMove_pieces_eq, simulateMove_pieces_eq, hp]
  refine congrArg _ (List.filter_congr ?_)
  intro p _
  refine decide_eq_decide.mpr ?_
  rw [simKeeps, simKeeps, epTriggered, epTriggered, getPieceAt_congr s₁ s₂ hp]

/-- Check detection after a simulated move is turn/gold independent. -/
theorem simCheck_congr (s₁ s₂ : BoardState) (hc : s₁.cells = s₂.cells)
    (hp : s₁.pieces = s₂.pieces) (hl : s₁.lastMove = s₂.lastMove) (m : Move) :
    isKingInCheck (simulateMove s₁ m) = isKingInCheck (simulateMove s₂ m) :=
  isKingInCheck_congr (simulateMove s₁ m) (simulateMove s₂ m)
    (by rw [simulateMove_cells, simulateMove_cells, hc])
    (simulateMove_pieces_congr s₁ s₂ hp m)
    (by rw [simulateMove_lastMove, simulateMove_lastMove, hl])

/-- The castling scan only reads cells, pieces and the last move. -/
theorem castleScan_congr (s₁ s₂ : BoardState) (hc : s₁.cells = s₂.cells)
    (hp : s₁.pieces = s₂.pieces) (hl : s₁.lastMove = s₂.lastMove)
    (piece rook : Piece) (dx : ℤ) :
    ∀ (n : ℕ) (x : ℤ),
      castleScan s₁ piece rook dx n x = castleScan s₂ piece rook dx n x := by
  intro n
  induction n with
  | zero =>
    intro x
    rfl
  | succ n ih =>
    intro x
    rw [castleScan, castleScan, getPieceAt_congr s₁ s₂ hp]
    simp only [simCheck_congr s₁ s₂ hc hp hl, ih]

/-- The per-rook castling accumulation is turn/gold independent. -/
theorem castleRooks_congr (s₁ s₂ : BoardState) (hc : s₁.cells = s₂.cells)
    (hp : s₁.pieces = s₂.pieces) (hl : s₁.lastMove = s₂.lastMove) (piece : Piece) :
    ∀ l : List Piece, castleRooks s₁ piece l = castleRooks s₂ piece l := by
  intro l
  induction l with
  | nil => rfl
  | cons rook rest ih =>
    rw [castleRooks, castleRooks, castleScan_congr s₁ s₂ hc hp hl, ih]

/-- `getCastlingMoves` only reads cells, pieces and the last move. -/
theorem getCastlingMoves_congr (s₁ s₂ : BoardState) (hc : s₁.cells = s₂.cells)
    (hp : s₁.pieces = s₂.pieces) (hl : s₁.lastMove = s₂.lastMove) :
    getCastlingMoves s₁ = getCastlingMoves s₂ := by
  funext piece
  rw [getCastlingMoves, getCastlingMoves, hp, isKingInCheck_congr s₁ s₂ hc hp hl,
    castleRooks_congr s₁ s₂ hc hp hl]

/-- The public move generator only reads cells, pieces and last move. -/
theorem getValidMoves_congr (s₁ s₂ : BoardState) (hc : s₁.cells = s₂.cells)
    (hp : s₁.pieces = s₂.pieces) (hl : s₁.lastMove = s₂.lastMove) :
    getValidMoves s₁ = getValidMoves s₂ := by
  funext pos ic
  rw [getValidMoves, getValidMoves, getPieceAt_congr s₁ s₂ hp,
    pieceMovesNoCastle_congr s₁ s₂ hc hp hl, getCastlingMoves_congr s₁ s₂ hc hp hl]
  simp only [simCheck_congr s₁ s₂ hc hp hl]

/-- `isCheckmate` only reads cells, pieces and the last move. -/
theorem isCheckmate_congr (s₁ s₂ : BoardState) (hc : s₁.cells = s₂.cells)
    (hp : s₁.pieces = s₂.pieces) (hl : s₁.lastMove = s₂.lastMove) :
    isCheckmate s₁ = isCheckmate s₂ := by
  funext color
  rw [isCheckmate, isCheckmate, hp, isKingInCheck_congr s₁ s₂ hc hp hl,
    getValidMoves_congr s₁ s₂ hc hp hl]

/-- `isStalemate` only reads cells, pieces and the last move. -/
theorem isStalemate_congr (s₁ s₂ : BoardState) (hc : s₁.cells = s₂.cells)
    (hp : s₁.pieces = s₂.pieces) (hl : s₁.lastMove = s₂.lastMove) :
    isStalemate s₁ = isStalemate s₂ := by
  funext color
  rw [isStalemate, isStalemate, hp, isKingInCheck_congr s₁ s₂ hc hp hl,
    getValidMoves_congr s₁ s₂ hc hp hl]

/-- Claim C10: snapshots that agree on cells, pieces and last move but
differ arbitrarily in turn and gold are indistinguishable to move
generation, check detection, terminal-state evaluation and the piece
outcome of `simulateMove`. -/
theorem engine_ignores_turn_and_gold (s₁ s₂ : BoardState)
    (hc : s₁.cells = s₂.cells) (hp : s₁.pieces = s₂.pieces)
    (hl : s₁.lastMove = s₂.lastMove) :
    (∀ (pos : Pos) (ic : Bool), getValidMoves s₁ pos ic = getValidMoves s₂ pos ic) ∧
    (∀ c : Color, isKingInCheck s₁ c = isKingInCheck s₂ c) ∧
    (∀ c : Color, isCheckmate s₁ c = isCheckmate s₂ c) ∧
    (∀ c : Color, isStalemate s₁ c = isStalemate s₂ c) ∧
    (∀ m : Move, (simulateMove s₁ m).pieces = (simulateMove s₂ m).pieces) :=
  ⟨fun pos ic => by rw [getValidMoves_congr s₁ s₂ hc hp hl],
    fun c => by rw [isKingInCheck_congr s₁ s₂ hc hp hl],
    fun c => by rw [isCheckmate_congr s₁ s₂ hc hp hl],
    fun c => by rw [isStalemate_congr s₁ s₂ hc hp hl],
    fun m => simulateMove_pieces_congr s₁ s₂ hp m⟩

/-- Witness for C10: the king snapshot versus the same snapshot with
flipped turn and nonzero gold. -/
theorem engine_ignores_turn_and_gold_witness :
    sW.cells = sW10.cells ∧ sW.pieces = sW10.pieces ∧ sW.lastMove = sW10.lastMove ∧
      ((∀ (pos : Pos) (ic : Bool), getValidMoves sW pos ic = getValidMoves sW10 pos ic) ∧
       (∀ c : Color, isKingInCheck sW c = isKingInCheck sW10 c) ∧
       (∀ c : Color, isCheckmate sW c = isCheckmate sW10 c) ∧
       (∀ c : Color, isStalemate sW c = isStalemate sW10 c) ∧
       (∀ m : Move, (simulateMove sW m).pieces = (simulateMove sW10 m).pieces)) :=
  ⟨rfl, rfl, rfl, engine_ignores_turn_and_gold sW sW10 rfl rfl rfl⟩

/-- Claim C1: every destination returned by `getValidMoves` in
non-`ignoreCheck` mode leaves the mover's own king out of check after
`simulateMove`. -/
theorem valid_moves_leave_king_safe (s : BoardState) (pos : Pos) (piece : Piece) (d : Pos)
    (hfind : getPieceAt s pos = some piece)
    (hd : d ∈ getValidMoves s pos false) :
    isKingInCheck (simulateMove s { fromPos := pos, toPos := d, piece := piece })
      piece.color = false := by
  rw [getValidMoves, hfind] at hd
  simp only [Bool.false_eq_true, if_false] at hd
  rcases List.mem_filter.mp hd with ⟨-, hsafe⟩
  simpa using hsafe

/-- Witness for C1: in the two-cell king snapshot, the king's move to
`(1,0)` is returned and indeed leaves white out of check. -/
theorem valid_moves_leave_king_safe_witness :
    getPieceAt sW ⟨0, 0⟩ = some wkW ∧ (⟨1, 0⟩ : Pos) ∈ getValidMoves sW ⟨0, 0⟩ false ∧
      isKingInCheck (simulateMove sW { fromPos := ⟨0, 0⟩, toPos := ⟨1, 0⟩, piece := wkW })
        wkW.color = false :=
  ⟨by decide, by decide,
    valid_moves_leave_king_safe sW ⟨0, 0⟩ wkW ⟨1, 0⟩ (by decide) (by decide)⟩

/-- Claim C8: `isCheckmate` and `isStalemate` are never both true:
checkmate requires the king to be in check and stalemate requires it
not to be. -/
theorem checkmate_stalemate_exclusive (s : BoardState) (c : Color) :
    (isCheckmate s c && isStalemate s c) = false := by
  rw [isCheckmate, isStalemate]
  cases h : isKingInCheck s c <;> simp [h]

/-- Claim C9: querying moves on an empty square yields the empty list
in both modes, and a color with no king is never in check. -/
theorem empty_square_and_missing_king (s : BoardState) (pos : Pos) (c : Color)
    (hempty : getPieceAt s pos = none)
    (hking : ∀ p ∈ s.pieces, ¬(p.type = PieceType.king ∧ p.color = c)) :
    getValidMoves s pos false = [] ∧ getValidMoves s pos true = [] ∧
      isKingInCheck s c = false := by
  refine ⟨by rw [getValidMoves, hempty], by rw [getValidMoves, hempty], ?_⟩
  have hfind : s.pieces.find?
      (fun p => decide (p.type = PieceType.king ∧ p.color = c)) = none := by
    rw [List.find?_eq_none]
    intro p hp
    simpa using hking p hp
  rw [isKingInCheck, hfind]

/-- Witness for C9: in the white-king snapshot, the empty square
`(1,0)` yields no moves and black (which has no king) is not in
check. -/
theorem empty_square_and_missing_king_witness :
    getPieceAt sW ⟨1, 0⟩ = none ∧
      (getValidMoves sW ⟨1, 0⟩ false = [] ∧ getValidMoves sW ⟨1, 0⟩ true = [] ∧
        isKingInCheck sW Color.black = false) :=
  ⟨by decide,
    empty_square_and_missing_king sW ⟨1, 0⟩ Color.black (by decide) (by decide)⟩

end Chaotic
